import Mathlib

/-!
Verification of the NASA Bioscience Knowledge Graph explorer (src/app.py).

The app operates on three immutable inputs loaded once per session: a
directed multigraph read from graphml, an entity table (nodes_df) and a
relationship table (edges_df).  We embed the queried columns of the two
tables and the graph as Lean structures and translate each analytic
operation of the app into an executable Lean function.  Python ints are
modelled as Int/Nat; real arithmetic that the app performs in floating
point (network density, PageRank scores) is modelled exactly over ℚ.
-/

/-- Row of the entity table nodes_df.  Only the columns the app queries
for behaviour are embedded: node (the entity name; None models a missing
NaN cell) and label.  The ontology columns (ncbi, go) are read purely for
display. -/
structure NodeRow where
  node : Option String
  label : String
deriving DecidableEq

/-- Row of the relationship table edges_df: columns subject, predicate,
object, weight (int64) and sources (comma-delimited string; None models a
missing NaN cell). -/
structure EdgeRow where
  subject : String
  predicate : String
  object : String
  weight : Int
  sources : Option String
deriving DecidableEq

/-! ### Entity search (tab 2)

The app matches entities with
nodes_df['node'].str.contains(search_term, case=False, na=False).
pandas str.contains treats the term as a regular expression by default
(regex=True), compiled with re.IGNORECASE because of case=False, and
na=False turns missing names into non-matches.  We model re.search for
the regex fragment in which the only metacharacter carrying its special
meaning is the dot (which matches any single character); all other
characters are matched literally.  Case folding is modelled with
Char.toLower (ASCII). -/

/-- Characters that are metacharacters of Python regular expressions. -/
def isRegexMetaChar (c : Char) : Bool :=
  c ∈ ['.', '^', '$', '*', '+', '?', '\x7b', '\x7d', '[', ']', '(', ')', '|', '\\']

/-- Match of one pattern character against one text character,
case-insensitively; the dot matches any character. -/
def charMatchCI (p c : Char) : Bool := p == '.' || p.toLower == c.toLower

/-- Does the pattern match a prefix of the text? -/
def patPrefixCI : List Char → List Char → Bool
  | [], _ => true
  | _ :: _, [] => false
  | p :: ps, c :: cs => charMatchCI p c && patPrefixCI ps cs

/-- Does the pattern match anywhere in the text (re.search semantics)? -/
def reSearchCI : List Char → List Char → Bool
  | pat, [] => patPrefixCI pat []
  | pat, c :: cs => patPrefixCI pat (c :: cs) || reSearchCI pat cs

/-- The model of pandas Series.str.contains(term, case=False) applied to
one entity name. -/
def strContainsCI (s pat : String) : Bool := reSearchCI pat.data s.data

/-- One row of nodes_df matched against the search term; a missing name
is a non-match (na=False). -/
def rowMatches (term : String) (r : NodeRow) : Bool :=
  match r.node with
  | none => false
  | some n => strContainsCI n term

/-- The matches dataframe of tab 2: all rows whose node name matches the
term, in table order. -/
def searchMatches (nodes : List NodeRow) (term : String) : List NodeRow :=
  nodes.filter (rowMatches term)

/-- Literal (non-regex) prefix match, used to state what the spec claims:
plain substring containment. -/
def litPrefix : List Char → List Char → Bool
  | [], _ => true
  | _ :: _, [] => false
  | p :: ps, c :: cs => p == c && litPrefix ps cs

/-- Literal substring containment. -/
def litSubstr : List Char → List Char → Bool
  | pat, [] => litPrefix pat []
  | pat, c :: cs => litPrefix pat (c :: cs) || litSubstr pat cs

/-- The spec-side matching rule: the term, case-folded, occurs as a
literal substring of the name, case-folded. -/
def substringCaseInsensitive (name term : String) : Bool :=
  litSubstr (term.data.map Char.toLower) (name.data.map Char.toLower)

/-- One search result of tab 2: the expander shows the entity, its label,
and connection counts computed over the full relationship table. -/
structure EntityMatch where
  entity : String
  label : String
  outgoing : Nat
  incoming : Nat
  sampleOut : List EdgeRow
deriving DecidableEq

/-- The rendered search results: the first 20 matching rows, each with
outgoing/incoming counts taken over the whole of edges_df
(edges_df[edges_df['subject'] == node] and ...['object'] == node) and up
to 5 sample outgoing relationships. -/
def searchResults (nodes : List NodeRow) (edges : List EdgeRow)
    (term : String) : List EntityMatch :=
  ((searchMatches nodes term).take 20).map (fun r =>
    let name := r.node.getD ""
    { entity := name
      label := r.label
      outgoing := (edges.filter (fun e => e.subject == name)).length
      incoming := (edges.filter (fun e => e.object == name)).length
      sampleOut := (edges.filter (fun e => e.subject == name)).take 5 })

/-! ### Relationship filtering (tab 3)

filtered_edges = edges_df[edges_df['weight'] >= min_weight]
if relationship_type != "All":
    filtered_edges = filtered_edges[filtered_edges['predicate'] == relationship_type]
-/

/-- The filtered relationship table of tab 3.  The sentinel for "no
predicate filter" is the capitalised string "All" offered by the
selectbox. -/
def filterEdges (edges : List EdgeRow) (rtype : String) (minWeight : Int) :
    List EdgeRow :=
  let f := edges.filter (fun e => decide (minWeight ≤ e.weight))
  if rtype != "All" then f.filter (fun e => e.predicate == rtype) else f

/-! ### Stable insertion sort

Used to model Python's sorted (Timsort, guaranteed stable by the
language; reverse=True keeps elements tied on the key in their original
order), which the app uses for the PageRank table.  The consensus sort
of tab 3 (pandas sort_values with the default kind='quicksort') is not
modelled: pandas documents only mergesort/stable as stable, so that
sort's tie order is not a guarantee of the program. -/

/-- Insert a in front of the first element b with le a b = true. -/
def insLe {α : Type} (le : α → α → Bool) (a : α) : List α → List α
  | [] => [a]
  | b :: bs => if le a b then a :: b :: bs else b :: insLe le a bs

/-- Stable insertion sort: an element placed earlier in the input comes
first among elements it ties with. -/
def sortLe {α : Type} (le : α → α → Bool) : List α → List α
  | [] => []
  | a :: as => insLe le a (sortLe le as)

/-! ### Maximum relationship weight (tab 3 slider bound)

The slider upper bound is int(edges_df['weight'].max()).  On an empty
table, Series.max() returns NaN and int(NaN) raises a plain ValueError
("cannot convert float NaN to integer"); no typed failure is produced. -/

/-- Result of evaluating int(edges_df['weight'].max()): either the
maximum weight, or the untyped ValueError raised by int(NaN) when the
table is empty. -/
inductive MaxWeightResult where
  | ok : Int → MaxWeightResult
  | valueError : MaxWeightResult
deriving DecidableEq

/-- int(edges_df['weight'].max()). -/
def maxWeight (edges : List EdgeRow) : MaxWeightResult :=
  match (edges.map (fun e => e.weight)).max? with
  | some m => MaxWeightResult.ok m
  | none => MaxWeightResult.valueError

/-! ### Source-document counts (tab 1)

for sources in edges_df['sources'].dropna():
    all_sources.extend(str(sources).split(','))
source_counts = Counter(all_sources)
-/

/-- Model of Python str.split(sep) for a single-character separator:
splits at every occurrence, keeping empty pieces. -/
def splitOnChar (sep : Char) : List Char → List (List Char)
  | [] => [[]]
  | c :: cs =>
    let r := splitOnChar sep cs
    if c == sep then [] :: r
    else
      match r with
      | [] => [[c]]
      | g :: gs => (c :: g) :: gs

/-- str(sources).split(','). -/
def pySplitComma (s : String) : List String :=
  (splitOnChar ',' s.data).map (fun cs => String.mk cs)

/-- The all_sources list: every comma-separated piece of every non-missing
sources cell, occurrences kept. -/
def allSources (edges : List EdgeRow) : List String :=
  (edges.filterMap (fun e => e.sources)).flatMap pySplitComma

/-- Counter(all_sources)[doc]: the number of relationships credited to a
document is the number of occurrences of its identifier in all_sources. -/
def sourceCount (edges : List EdgeRow) (doc : String) : Nat :=
  (allSources edges).count doc

/-! ### The graph (tabs 1 and 4)

nx.read_graphml produces a directed multigraph (spec section 3); we embed
it as a vertex list in file order plus an edge list carrying the weight
attribute (used by nx.pagerank). -/

/-- A directed edge of the loaded graph with its weight attribute. -/
structure GEdge where
  src : String
  dst : String
  w : ℚ
deriving DecidableEq

/-- The loaded graph: vertices in graphml order and directed weighted
edges. -/
structure DiGraph where
  vertices : List String
  edges : List GEdge
deriving DecidableEq

/-- Adjacency of the undirected projection (G.to_undirected()): u and v
are adjacent when some edge joins them in either direction. -/
def adjB (g : DiGraph) (u v : String) : Bool :=
  g.edges.any (fun e => (e.src == u && e.dst == v) || (e.src == v && e.dst == u))

/-- One breadth-first expansion step on the undirected projection: add
every vertex adjacent to the current set. -/
def stepClosure (g : DiGraph) (s : List String) : List String :=
  s ++ g.vertices.filter (fun v => !(s.contains v) && s.any (fun u => adjB g u v))

/-- Iterated expansion. -/
def iterClosure (g : DiGraph) : Nat → List String → List String
  | 0, s => s
  | n + 1, s => iterClosure g n (stepClosure g s)

/-- The set of vertices reached by the breadth-first search nx uses for
connectivity (plain_bfs); |V| expansion steps saturate. -/
def bfsFrom (g : DiGraph) (v : String) : List String :=
  iterClosure g g.vertices.length [v]

/-- The loop of nx.connected_components: scan vertices in order, and for
each not yet seen vertex count one component and mark its closure seen. -/
def compFold (g : DiGraph) : List String → List String → Nat → Nat
  | [], _, acc => acc
  | v :: vs, visited, acc =>
    if visited.contains v then compFold g vs visited acc
    else compFold g vs (visited ++ bfsFrom g v) (acc + 1)

/-- nx.number_connected_components on the undirected projection. -/
def numConnectedComponents (g : DiGraph) : Nat :=
  compFold g g.vertices [] 0

/-- The canonical component list of a vertex: the vertices of the graph,
in table order, reachable from it in the undirected projection. -/
def componentOf (g : DiGraph) (v : String) : List String :=
  g.vertices.filter (fun u => (bfsFrom g v).contains u)

/-- The number of distinct connected components, counted as the number of
distinct component sets of the vertices. -/
def distinctComponentCount (g : DiGraph) : Nat :=
  (g.vertices.toFinset.image (componentOf g)).card

/-- First n at which p holds, searching fuel consecutive values from
start. -/
def firstTrue (p : Nat → Bool) : Nat → Nat → Option Nat
  | 0, _ => none
  | fuel + 1, n => if p n then some n else firstTrue p fuel (n + 1)

/-- Unweighted shortest-path distance on the undirected projection: the
first BFS layer containing the target (none when unreachable). -/
def bfsDist (g : DiGraph) (u v : String) : Option Nat :=
  firstTrue (fun n => (iterClosure g n [u]).contains v) (g.vertices.length + 1) 0

/-- Eccentricity of a vertex: greatest distance to any vertex (distances
to unreachable vertices read as 0; the app only evaluates this on a
connected graph). -/
def eccentricity (g : DiGraph) (u : String) : Nat :=
  (g.vertices.map (fun v => (bfsDist g u v).getD 0)).foldr max 0

/-- nx.diameter: the greatest eccentricity. -/
def diameter (g : DiGraph) : Nat :=
  (g.vertices.map (fun u => eccentricity g u)).foldr max 0

/-- Result shown in the middle column of tab 4. -/
inductive ConnResult where
  | Diameter : Nat → ConnResult
  | ComponentCount : Nat → ConnResult
deriving DecidableEq

/-- The connectivity metric of tab 4:
if nx.is_connected(G.to_undirected()): show nx.diameter(...)
else: show nx.number_connected_components(...).
nx.is_connected compares the size of one BFS closure with len(G) and
raises NetworkXPointlessConcept on the empty graph (modelled none). -/
def connectivity (g : DiGraph) : Option ConnResult :=
  match g.vertices with
  | [] => none
  | v :: _ =>
    if (bfsFrom g v).length = g.vertices.length
    then some (ConnResult.Diameter (diameter g))
    else some (ConnResult.ComponentCount (numConnectedComponents g))

/-- nx.density: for a directed graph m / (n*(n-1)); 0 when there are no
edges or fewer than two vertices. -/
def density (g : DiGraph) : ℚ :=
  if g.edges.length = 0 ∨ g.vertices.length ≤ 1 then 0
  else (g.edges.length : ℚ) /
    ((g.vertices.length : ℚ) * ((g.vertices.length : ℚ) - 1))

/-! ### PageRank (tab 4)

nx.pagerank(G) with the default alpha=0.85, tol=1e-6, max_iter=100,
weight='weight': power iteration from the uniform vector; each step
distributes rank along out-edges proportionally to edge weight, spreads
the rank of dangling nodes uniformly, converges when the l1 change drops
below N*tol, and raises PowerIterationFailedConvergence (modelled none)
when 100 iterations do not converge.  Scores are modelled over ℚ. -/

/-- Total out-weight of a vertex. -/
def outWeight (g : DiGraph) (v : String) : ℚ :=
  (g.edges.filter (fun e => e.src == v)).foldr (fun e acc => e.w + acc) 0

/-- Score of a vertex in a score list (vertex order of the graph). -/
def prLookup (x : List (String × ℚ)) (v : String) : ℚ :=
  ((x.find? (fun p => p.1 == v)).map (fun p => p.2)).getD 0

/-- Rank flowing into v along in-edges, each source vertex distributing
its score proportionally to edge weight. -/
def prContrib (g : DiGraph) (x : List (String × ℚ)) (v : String) : ℚ :=
  (g.edges.filter (fun e => e.dst == v)).foldr
    (fun e acc => prLookup x e.src * e.w / outWeight g e.src + acc) 0

/-- One power-iteration step. -/
def prStep (g : DiGraph) (x : List (String × ℚ)) : List (String × ℚ) :=
  let nQ : ℚ := (g.vertices.length : ℚ)
  let d : ℚ := 85 / 100
  let danglesum : ℚ :=
    d * ((g.vertices.filter (fun v => decide (outWeight g v = 0))).foldr
      (fun v acc => prLookup x v + acc) 0)
  g.vertices.map (fun v =>
    (v, (1 - d) / nQ + danglesum / nQ + d * prContrib g x v))

/-- l1 distance between two score vectors, summed over the vertices. -/
def prErr (g : DiGraph) (x y : List (String × ℚ)) : ℚ :=
  (g.vertices.map (fun v => |prLookup x v - prLookup y v|)).sum

/-- The capped iteration loop. -/
def prLoop (g : DiGraph) : Nat → List (String × ℚ) → Option (List (String × ℚ))
  | 0, _ => none
  | fuel + 1, x =>
    let x2 := prStep g x
    if prErr g x2 x < (g.vertices.length : ℚ) * (1 / 1000000)
    then some x2
    else prLoop g fuel x2

/-- nx.pagerank(G): empty dict on the empty graph, otherwise up to 100
power-iteration steps from the uniform vector. -/
def pagerankScores (g : DiGraph) : Option (List (String × ℚ)) :=
  match g.vertices with
  | [] => some []
  | _ =>
    prLoop g 100
      (g.vertices.map (fun v => (v, 1 / (g.vertices.length : ℚ))))

/-- Model of Python sorted(pagerank.items(), key=score, reverse=True):
stable descending sort by score — elements tied on score keep the
dictionary (graph node) order. -/
def sortByScoreDesc (l : List (String × ℚ)) : List (String × ℚ) :=
  sortLe (fun a b => decide (b.2 ≤ a.2)) l

/-- The PageRank table of tab 4; the app instantiates k = 15
(top_pagerank = sorted(...)[:15]). -/
def topByPageRank (g : DiGraph) (k : Nat) : Option (List (String × ℚ)) :=
  (pagerankScores g).map (fun pr => (sortByScoreDesc pr).take k)

/-! ### Reachability on the undirected projection (specification side) -/

/-- A walk of a given length in the undirected projection. -/
inductive Walk (g : DiGraph) : String → String → Nat → Prop where
  | refl (v : String) : Walk g v v 0
  | snoc {u w v : String} {n : Nat} :
      Walk g u w n → adjB g w v = true → Walk g u v (n + 1)

/-- Connectivity of two vertices in the undirected projection. -/
def Reaches (g : DiGraph) (u v : String) : Prop := ∃ n, Walk g u v n

/-- d is the shortest-path hop count from u to v. -/
def ShortestDist (g : DiGraph) (u v : String) (d : Nat) : Prop :=
  Walk g u v d ∧ ∀ m, Walk g u v m → d ≤ m

/-- d is the longest shortest-path hop count of the graph. -/
def IsGraphDiameter (g : DiGraph) (d : Nat) : Prop :=
  (∃ u ∈ g.vertices, ∃ v ∈ g.vertices, ShortestDist g u v d) ∧
    ∀ u ∈ g.vertices, ∀ v ∈ g.vertices, ∀ m, ShortestDist g u v m → m ≤ d

/-- Strict lexicographic order on names, used to state the tie-breaking
rule the spec prescribes for the PageRank table. -/
def lexLT : List Char → List Char → Bool
  | [], [] => false
  | [], _ :: _ => true
  | _ :: _, [] => false
  | a :: as, b :: bs =>
    if a < b then true else if b < a then false else lexLT as bs

/-- Lexicographic order on entity names. -/
def strLexLT (s t : String) : Bool := lexLT s.data t.data

/-! ### Concrete instances used in counterexamples and witnesses -/

/-- An entity named abc. -/
def nodeAbc : NodeRow := { node := some "abc", label := "concept" }

/-- An entity row with a missing name. -/
def nodeNoName : NodeRow := { node := none, label := "concept" }

/-- The isolated entity of the spec scenario. -/
def nodeD : NodeRow := { node := some "D", label := "concept" }

/-- A relationship of weight 1. -/
def edgeReg : EdgeRow :=
  { subject := "A", predicate := "regulates", object := "B", weight := 1,
    sources := none }

/-- A relationship of weight 3. -/
def edgeAB3 : EdgeRow :=
  { subject := "A", predicate := "p", object := "B", weight := 3,
    sources := none }

/-- A relationship of weight 5. -/
def edgeEF5 : EdgeRow :=
  { subject := "E", predicate := "q", object := "F", weight := 5,
    sources := none }

/-- A relationship whose sources cell repeats one document. -/
def edgeDupSources : EdgeRow :=
  { subject := "A", predicate := "p", object := "B", weight := 2,
    sources := some "a,a" }

/-- The search result produced for the isolated entity D. -/
def matchD : EntityMatch :=
  { entity := "D", label := "concept", outgoing := 0, incoming := 0,
    sampleOut := [] }

/-- The empty graph. -/
def gEmpty : DiGraph := { vertices := [], edges := [] }

/-- A connected two-vertex graph with a single directed edge. -/
def gPair : DiGraph :=
  { vertices := ["A", "B"], edges := [{ src := "A", dst := "B", w := 1 }] }

/-- Two isolated vertices whose file order is not lexicographic. -/
def gBA : DiGraph := { vertices := ["b", "a"], edges := [] }

/-! ## Generic lemmas about the stable insertion sort -/

theorem insLe_perm {α : Type} (le : α → α → Bool) (a : α) :
    ∀ l : List α, (insLe le a l).Perm (a :: l)
  | [] => List.Perm.refl _
  | b :: bs => by
    unfold insLe
    by_cases h : le a b = true
    · simp [h]
    · rw [if_neg h]
      exact ((insLe_perm le a bs).cons b).trans (List.Perm.swap a b bs)

theorem sortLe_perm {α : Type} (le : α → α → Bool) :
    ∀ l : List α, (sortLe le l).Perm l
  | [] => List.Perm.refl _
  | a :: as => by
    unfold sortLe
    exact (insLe_perm le a (sortLe le as)).trans ((sortLe_perm le as).cons a)

theorem mem_insLe {α : Type} (le : α → α → Bool) (a x : α) (l : List α) :
    x ∈ insLe le a l ↔ x = a ∨ x ∈ l := by
  rw [(insLe_perm le a l).mem_iff, List.mem_cons]

theorem insLe_pairwise {α : Type} (le : α → α → Bool)
    (htot : ∀ x y, le x y = true ∨ le y x = true)
    (htr : ∀ x y z, le x y = true → le y z = true → le x z = true)
    (a : α) :
    ∀ l : List α, l.Pairwise (fun x y => le x y = true) →
      (insLe le a l).Pairwise (fun x y => le x y = true)
  | [], _ => by simp [insLe]
  | b :: bs, h => by
    rcases List.pairwise_cons.1 h with ⟨hb, hbs⟩
    unfold insLe
    by_cases hab : le a b = true
    · simp only [if_pos hab]
      refine List.pairwise_cons.2 ⟨?_, h⟩
      intro y hy
      rcases List.mem_cons.1 hy with rfl | hy
      · exact hab
      · exact htr a b y hab (hb y hy)
    · simp only [if_neg hab]
      refine List.pairwise_cons.2 ⟨?_, insLe_pairwise le htot htr a bs hbs⟩
      intro y hy
      rcases (mem_insLe le a y bs).1 hy with hya | hy
      · rw [hya]
        rcases htot a b with h1 | h1
        · exact absurd h1 hab
        · exact h1
      · exact hb y hy

theorem sortLe_pairwise {α : Type} (le : α → α → Bool)
    (htot : ∀ x y, le x y = true ∨ le y x = true)
    (htr : ∀ x y z, le x y = true → le y z = true → le x z = true) :
    ∀ l : List α, (sortLe le l).Pairwise (fun x y => le x y = true)
  | [] => by simp [sortLe]
  | a :: as => by
    unfold sortLe
    exact insLe_pairwise le htot htr a (sortLe le as)
      (sortLe_pairwise le htot htr as)

theorem insLe_filter_pos {α : Type} (le : α → α → Bool) (p : α → Bool)
    (a : α) (hpa : p a = true) (himp : ∀ b, le a b = false → p b = false) :
    ∀ l : List α, (insLe le a l).filter p = a :: l.filter p
  | [] => by simp [insLe, hpa]
  | b :: bs => by
    unfold insLe
    by_cases hab : le a b = true
    · simp [if_pos hab, List.filter_cons, hpa]
    · simp only [if_neg hab]
      have hpb : p b = false := himp b (by simpa using hab)
      simp [List.filter_cons, hpb, insLe_filter_pos le p a hpa himp bs]

theorem insLe_filter_neg {α : Type} (le : α → α → Bool) (p : α → Bool)
    (a : α) (hpa : p a = false) :
    ∀ l : List α, (insLe le a l).filter p = l.filter p
  | [] => by simp [insLe, hpa]
  | b :: bs => by
    unfold insLe
    by_cases hab : le a b = true
    · simp [if_pos hab, List.filter_cons, hpa]
    · simp only [if_neg hab]
      simp [List.filter_cons, insLe_filter_neg le p a hpa bs]

theorem sortLe_filter {α : Type} (le : α → α → Bool) (p : α → Bool)
    (himp : ∀ a b, p a = true → le a b = false → p b = false) :
    ∀ l : List α, (sortLe le l).filter p = l.filter p
  | [] => rfl
  | a :: as => by
    unfold sortLe
    by_cases hpa : p a = true
    · rw [insLe_filter_pos le p a hpa (fun b => himp a b hpa),
        sortLe_filter le p himp as, List.filter_cons, if_pos hpa]
    · have hpa' : p a = false := by simpa using hpa
      rw [insLe_filter_neg le p a hpa', sortLe_filter le p himp as,
        List.filter_cons, if_neg (by simp [hpa'])]

/-! ## Generic lemmas about foldr max -/

theorem le_foldr_max (x : Nat) : ∀ l : List Nat, x ∈ l → x ≤ l.foldr max 0
  | a :: t, hx => by
    rcases List.mem_cons.1 hx with rfl | hx
    · exact le_max_left _ _
    · exact (le_foldr_max x t hx).trans (le_max_right _ _)

theorem foldr_max_zero_or_mem :
    ∀ l : List Nat, l.foldr max 0 = 0 ∨ l.foldr max 0 ∈ l
  | [] => Or.inl rfl
  | a :: t => by
    rcases le_total a (t.foldr max 0) with h | h
    · rw [List.foldr_cons, max_eq_right h]
      rcases foldr_max_zero_or_mem t with h0 | hm
      · exact Or.inl h0
      · exact Or.inr (List.mem_cons_of_mem a hm)
    · rw [List.foldr_cons, max_eq_left h]
      exact Or.inr (List.mem_cons_self a t)

/-- toFinset of a mapped list is the image of the toFinset. -/
theorem toFinset_of_map {α β : Type} [DecidableEq α] [DecidableEq β]
    (f : α → β) (l : List α) : (l.map f).toFinset = l.toFinset.image f := by
  ext b
  simp

/-! ## Search: regex model versus literal substring (claims C1, C10) -/

theorem charMatchCI_lit (p c : Char) (hp : (p == '.') = false) :
    charMatchCI p c = (p.toLower == c.toLower) := by
  simp [charMatchCI, hp]

theorem patPrefixCI_lit :
    ∀ pat s : List Char, (∀ p ∈ pat, (p == '.') = false) →
      patPrefixCI pat s = litPrefix (pat.map Char.toLower) (s.map Char.toLower)
  | [], s, _ => by cases s <;> rfl
  | _ :: _, [], _ => rfl
  | p :: ps, c :: cs, h => by
    simp only [patPrefixCI, List.map_cons, litPrefix]
    rw [charMatchCI_lit p c (h p (List.mem_cons_self _ _)),
      patPrefixCI_lit ps cs (fun q hq => h q (List.mem_cons_of_mem _ hq))]

theorem reSearchCI_lit :
    ∀ s pat : List Char, (∀ p ∈ pat, (p == '.') = false) →
      reSearchCI pat s = litSubstr (pat.map Char.toLower) (s.map Char.toLower)
  | [], pat, h => by
    simp only [reSearchCI, List.map_nil, litSubstr]
    exact patPrefixCI_lit pat [] h
  | c :: cs, pat, h => by
    simp only [reSearchCI, List.map_cons, litSubstr]
    rw [patPrefixCI_lit pat (c :: cs) h, reSearchCI_lit cs pat h]
    simp only [List.map_cons]

theorem no_meta_no_dot {term : String}
    (h : ∀ c ∈ term.data, isRegexMetaChar c = false) :
    ∀ p ∈ term.data, (p == '.') = false := by
  intro p hp
  by_cases hd : p = '.'
  · have := h p hp
    rw [hd] at this
    exact absurd this (by decide)
  · simp [hd]

theorem patPrefixCI_congr :
    ∀ pat1 pat2 s : List Char,
      List.Forall₂ (fun a b => ∀ c, charMatchCI a c = charMatchCI b c)
        pat1 pat2 →
      patPrefixCI pat1 s = patPrefixCI pat2 s
  | _, _, s, List.Forall₂.nil => by cases s <;> rfl
  | _ :: _, _ :: _, s, List.Forall₂.cons hab h => by
    cases s with
    | nil => rfl
    | cons c cs =>
      simp only [patPrefixCI]
      rw [hab c, patPrefixCI_congr _ _ cs h]

theorem reSearchCI_congr (pat1 pat2 : List Char)
    (h : List.Forall₂ (fun a b => ∀ c, charMatchCI a c = charMatchCI b c)
      pat1 pat2) :
    ∀ s, reSearchCI pat1 s = reSearchCI pat2 s
  | [] => by
    simp only [reSearchCI]
    exact patPrefixCI_congr _ _ [] h
  | c :: cs => by
    simp only [reSearchCI]
    rw [patPrefixCI_congr _ _ (c :: cs) h, reSearchCI_congr pat1 pat2 h cs]

theorem charMatchCI_P_p : ∀ c, charMatchCI 'P' c = charMatchCI 'p' c := by
  intro c
  have h1 : 'P'.toLower = 'p' := by decide
  have h2 : 'p'.toLower = 'p' := by decide
  have h3 : ('P' == '.') = false := by decide
  have h4 : ('p' == '.') = false := by decide
  simp [charMatchCI, h1, h2, h3, h4]

theorem protein_pattern_congr :
    List.Forall₂ (fun a b => ∀ c, charMatchCI a c = charMatchCI b c)
      ("Protein".data) ("protein".data) := by
  have hd1 : "Protein".data = ['P', 'r', 'o', 't', 'e', 'i', 'n'] := rfl
  have hd2 : "protein".data = ['p', 'r', 'o', 't', 'e', 'i', 'n'] := rfl
  rw [hd1, hd2]
  refine List.Forall₂.cons charMatchCI_P_p ?_
  refine List.Forall₂.cons (fun c => rfl) ?_
  refine List.Forall₂.cons (fun c => rfl) ?_
  refine List.Forall₂.cons (fun c => rfl) ?_
  refine List.Forall₂.cons (fun c => rfl) ?_
  refine List.Forall₂.cons (fun c => rfl) ?_
  exact List.Forall₂.cons (fun c => rfl) List.Forall₂.nil

theorem searchMatches_protein (nodes : List NodeRow) :
    searchMatches nodes "Protein" = searchMatches nodes "protein" := by
  apply List.filter_congr
  intro r _
  cases hr : r.node with
  | none => simp [rowMatches, hr]
  | some n =>
    simp only [rowMatches, hr, strContainsCI]
    exact reSearchCI_congr _ _ protein_pattern_congr n.data

/-- C1 (counterexample): the claim says search matches exactly the
entities containing the term as a literal substring, for any term
including ones with punctuation or special characters.  The term "." is
matched as a regular expression, so it matches the entity "abc" although
"." never occurs in "abc" as a literal substring. -/
theorem search_regex_dot_counterexample :
    nodeAbc ∈ searchMatches [nodeAbc] "." ∧
      substringCaseInsensitive "abc" "." = false := by
  constructor
  · decide
  · decide

/-- C1 (amended): the search term is matched as a case-insensitive
regular expression (pandas str.contains default regex=True).  For terms
containing no regex metacharacter this coincides with case-insensitive
literal substring matching, and search("Protein") and search("protein")
return identical sequences. -/
theorem search_literal_terms_substring (nodes : List NodeRow) (term : String)
    (h : ∀ c ∈ term.data, isRegexMetaChar c = false) :
    searchMatches nodes term = nodes.filter (fun r =>
      match r.node with
      | some n => substringCaseInsensitive n term
      | none => false)
    ∧ searchMatches nodes "Protein" = searchMatches nodes "protein" := by
  refine ⟨?_, searchMatches_protein nodes⟩
  apply List.filter_congr
  intro r _
  cases hr : r.node with
  | none => simp [rowMatches, hr]
  | some n =>
    simp only [rowMatches, hr, strContainsCI, substringCaseInsensitive]
    exact reSearchCI_lit n.data term.data (no_meta_no_dot h)

/-- Witness for search_literal_terms_substring at a concrete input. -/
theorem search_literal_terms_substring_witness :
    (∀ c ∈ ("B" : String).data, isRegexMetaChar c = false) ∧
      (searchMatches [nodeAbc] "B" = [nodeAbc].filter (fun r =>
        match r.node with
        | some n => substringCaseInsensitive n "B"
        | none => false)
      ∧ searchMatches [nodeAbc] "Protein" = searchMatches [nodeAbc] "protein") :=
  ⟨by decide, search_literal_terms_substring [nodeAbc] "B" (by decide)⟩

/-- C10: a row whose name cell is missing never appears among the search
matches, for any term; na=False turns NaN names into non-matches instead
of errors. -/
theorem search_missing_name_never_matches (nodes : List NodeRow)
    (term : String) (r : NodeRow) (h : r.node = none) :
    r ∉ searchMatches nodes term := by
  intro hmem
  have hm := (List.mem_filter.1 hmem).2
  simp [rowMatches, h] at hm

/-- Witness for search_missing_name_never_matches at a concrete input. -/
theorem search_missing_name_never_matches_witness :
    nodeNoName.node = none ∧ nodeNoName ∉ searchMatches [nodeNoName] "c" :=
  ⟨rfl, search_missing_name_never_matches [nodeNoName] "c" nodeNoName rfl⟩

/-- C9: every rendered search result carries outgoing/incoming counts
that are exactly the number of relationships of the full table whose
subject (resp. object) is the matched entity, independent of the result
limit; and the isolated entity D yields exactly one match with zero
counts. -/
theorem search_counts_exact (nodes : List NodeRow) (edges : List EdgeRow)
    (term : String) (m : EntityMatch)
    (h : m ∈ searchResults nodes edges term) :
    (m.outgoing = (edges.filter (fun e => e.subject == m.entity)).length ∧
      m.incoming = (edges.filter (fun e => e.object == m.entity)).length) ∧
    searchResults [nodeD] [] "D" = [matchD] := by
  refine ⟨?_, by decide⟩
  rcases List.mem_map.1 h with ⟨r, _, rfl⟩
  exact ⟨rfl, rfl⟩

/-- Witness for search_counts_exact at a concrete input. -/
theorem search_counts_exact_witness :
    matchD ∈ searchResults [nodeD] [] "D" ∧
      ((matchD.outgoing =
          (([] : List EdgeRow).filter (fun e => e.subject == matchD.entity)).length ∧
        matchD.incoming =
          (([] : List EdgeRow).filter (fun e => e.object == matchD.entity)).length) ∧
        searchResults [nodeD] [] "D" = [matchD]) :=
  ⟨by decide, search_counts_exact [nodeD] [] "D" matchD (by decide)⟩

/-! ## Relationship filter (claim C5) -/

theorem filterEdges_eq_filter (edges : List EdgeRow) (rtype : String)
    (minWeight : Int) :
    filterEdges edges rtype minWeight = edges.filter (fun e =>
      decide (minWeight ≤ e.weight) &&
        (rtype == "All" || e.predicate == rtype)) := by
  unfold filterEdges
  by_cases hr : (rtype == "All") = true
  · have hb : (rtype != "All") = false := by simp [bne, hr]
    rw [hb]
    simp only [Bool.false_eq_true, if_false]
    apply List.filter_congr
    intro e _
    rw [hr]
    simp
  · have hr' : (rtype == "All") = false := by simpa using hr
    have hb : (rtype != "All") = true := by simp [bne, hr']
    rw [hb]
    simp only [if_true]
    rw [List.filter_filter]
    apply List.filter_congr
    intro e _
    rw [hr']
    simp [Bool.and_comm]

/-- C5 (counterexample): the claim names the sentinel "all", but the
code's sentinel is the capitalised "All"; passing "all" filters on
predicate == "all" instead of disabling the predicate filter, so
filter("all", 1) is not the identity. -/
theorem filter_lowercase_sentinel_counterexample :
    filterEdges [edgeReg] "all" 1 = [] ∧
      filterEdges [edgeReg] "all" 1 ≠ [edgeReg] := by
  constructor
  · decide
  · decide

/-- C5 (amended): with the code's sentinel "All", filter("All", 1)
returns the relationship set unchanged in order and count, and in
general filter returns exactly the relationships with weight ≥ minWeight
whose predicate matches when the filter is not the sentinel, preserving
table order. -/
theorem filter_characterization (edges : List EdgeRow)
    (hw : ∀ e ∈ edges, 1 ≤ e.weight) :
    filterEdges edges "All" 1 = edges ∧
      ∀ rtype : String, ∀ minWeight : Int,
        filterEdges edges rtype minWeight = edges.filter (fun e =>
          decide (minWeight ≤ e.weight) &&
            (rtype == "All" || e.predicate == rtype)) := by
  refine ⟨?_, fun rtype minWeight => filterEdges_eq_filter edges rtype minWeight⟩
  rw [filterEdges_eq_filter edges "All" 1]
  apply List.filter_eq_self.2
  intro e he
  simp [hw e he]

/-- Witness for filter_characterization at a concrete input. -/
theorem filter_characterization_witness :
    (∀ e ∈ [edgeReg], 1 ≤ e.weight) ∧
      (filterEdges [edgeReg] "All" 1 = [edgeReg] ∧
        ∀ rtype : String, ∀ minWeight : Int,
          filterEdges [edgeReg] rtype minWeight = [edgeReg].filter (fun e =>
            decide (minWeight ≤ e.weight) &&
              (rtype == "All" || e.predicate == rtype))) :=
  ⟨by decide, filter_characterization [edgeReg] (by decide)⟩

/-! ## Maximum weight (claim C4) -/

/-- C4 (code bug evidence): on an empty relationship table the code
evaluates int(edges_df['weight'].max()) = int(NaN), which raises an
untyped ValueError instead of the typed EmptyGraph failure the spec
declares; on a non-empty table it returns the maximum weight. -/
theorem maxWeight_empty_raises_untyped :
    maxWeight [] = MaxWeightResult.valueError ∧
      maxWeight [edgeAB3, edgeEF5] = MaxWeightResult.ok 5 := by
  constructor
  · decide
  · decide

/-! ## Source-document counting (claim C8) -/

/-- C8 (counterexample): a single relationship whose sources cell is
"a,a" contributes 2 to the count of document a, not at most 1; the code
extends a flat list with every comma-separated piece and counts
occurrences, with no set collapse. -/
theorem sourceCount_duplicates_counterexample :
    sourceCount [edgeDupSources] "a" = 2 ∧
      ¬ sourceCount [edgeDupSources] "a" ≤ 1 := by
  constructor
  · decide
  · decide

/-- C8 (amended): the count of a document is the total number of
occurrences of its identifier across the comma-split sources cells of
all relationships (multiset semantics): one relationship contributes
once per occurrence, and duplicates within one cell do not collapse. -/
theorem sourceCount_multiset (edges : List EdgeRow) (doc : String) :
    sourceCount edges doc =
      (edges.map (fun e =>
        match e.sources with
        | none => 0
        | some s => (pySplitComma s).count doc)).sum := by
  induction edges with
  | nil => rfl
  | cons e es ih =>
    cases hs : e.sources with
    | none =>
      simp only [sourceCount, allSources, List.filterMap_cons, hs] at ih ⊢
      simp only [List.map_cons, hs, List.sum_cons]
      rw [ih]
      omega
    | some s =>
      simp only [sourceCount, allSources, List.filterMap_cons, hs] at ih ⊢
      simp only [List.map_cons, hs, List.sum_cons, List.flatMap_cons,
        List.count_append]
      rw [ih]

/-! ## Undirected reachability: soundness and completeness of the BFS
closure (claim C2) -/

theorem contains_mem_iff {l : List String} {a : String} :
    l.contains a = true ↔ a ∈ l := List.elem_iff

theorem adjB_symm {g : DiGraph} {u v : String} (h : adjB g u v = true) :
    adjB g v u = true := by
  rcases List.any_eq_true.1 h with ⟨e, he, hcond⟩
  refine List.any_eq_true.2 ⟨e, he, ?_⟩
  rcases Bool.or_eq_true_iff.1 hcond with h1 | h1
  · exact Bool.or_eq_true_iff.2 (Or.inr h1)
  · exact Bool.or_eq_true_iff.2 (Or.inl h1)

theorem adjB_mem_right {g : DiGraph} {u v : String}
    (hE : ∀ e ∈ g.edges, e.src ∈ g.vertices ∧ e.dst ∈ g.vertices)
    (h : adjB g u v = true) : v ∈ g.vertices := by
  rcases List.any_eq_true.1 h with ⟨e, he, hcond⟩
  rcases Bool.or_eq_true_iff.1 hcond with h1 | h1
  · rw [Bool.and_eq_true] at h1
    have : e.dst = v := by simpa using h1.2
    exact this ▸ (hE e he).2
  · rw [Bool.and_eq_true] at h1
    have : e.src = v := by simpa using h1.1
    exact this ▸ (hE e he).1

theorem mem_stepClosure {g : DiGraph} {s : List String} {v : String} :
    v ∈ stepClosure g s ↔
      v ∈ s ∨ (v ∈ g.vertices ∧ ∃ u ∈ s, adjB g u v = true) := by
  unfold stepClosure
  rw [List.mem_append]
  constructor
  · rintro (h | h)
    · exact Or.inl h
    · rcases List.mem_filter.1 h with ⟨hv, hcond⟩
      rw [Bool.and_eq_true] at hcond
      rcases List.any_eq_true.1 hcond.2 with ⟨u, hu, hadj⟩
      exact Or.inr ⟨hv, u, hu, hadj⟩
  · rintro (h | ⟨hv, u, hu, hadj⟩)
    · exact Or.inl h
    · by_cases hs : v ∈ s
      · exact Or.inl hs
      · refine Or.inr (List.mem_filter.2 ⟨hv, ?_⟩)
        rw [Bool.and_eq_true]
        refine ⟨?_, List.any_eq_true.2 ⟨u, hu, hadj⟩⟩
        simp [contains_mem_iff, hs]

theorem subset_stepClosure {g : DiGraph} {s : List String} :
    s ⊆ stepClosure g s := fun _ hx => List.mem_append.2 (Or.inl hx)

theorem stepClosure_subset {g : DiGraph} {s : List String}
    (hs : s ⊆ g.vertices) : stepClosure g s ⊆ g.vertices := by
  intro x hx
  rcases mem_stepClosure.1 hx with h | ⟨h, _⟩
  · exact hs h
  · exact h

theorem nodup_stepClosure {g : DiGraph} {s : List String}
    (hnd : g.vertices.Nodup) (hs : s.Nodup) : (stepClosure g s).Nodup := by
  refine List.Nodup.append hs (List.Nodup.filter _ hnd) ?_
  intro x hxs hxf
  have hcond := (List.mem_filter.1 hxf).2
  rw [Bool.and_eq_true] at hcond
  have hnc := hcond.1
  rw [Bool.not_eq_true'] at hnc
  have hc := contains_mem_iff.2 hxs
  rw [hnc] at hc
  exact Bool.false_ne_true hc

theorem iterClosure_step_comm (g : DiGraph) :
    ∀ (n : Nat) (s : List String),
      iterClosure g n (stepClosure g s) = stepClosure g (iterClosure g n s)
  | 0, _ => rfl
  | n + 1, s => by
    show iterClosure g n (stepClosure g (stepClosure g s)) =
      stepClosure g (iterClosure g n (stepClosure g s))
    rw [iterClosure_step_comm g n (stepClosure g s)]

theorem iterClosure_succ (g : DiGraph) (n : Nat) (s : List String) :
    iterClosure g (n + 1) s = stepClosure g (iterClosure g n s) :=
  iterClosure_step_comm g n s

theorem subset_iterClosure (g : DiGraph) :
    ∀ (n : Nat) (s : List String), s ⊆ iterClosure g n s
  | 0, _ => fun _ h => h
  | n + 1, s => by
    rw [iterClosure_succ]
    exact fun x hx => subset_stepClosure (subset_iterClosure g n s hx)

theorem iterClosure_mono (g : DiGraph) {m n : Nat} (h : m ≤ n)
    (s : List String) : iterClosure g m s ⊆ iterClosure g n s := by
  induction n with
  | zero =>
    have : m = 0 := Nat.le_zero.1 h
    subst this
    exact fun _ h => h
  | succ n ih =>
    rcases Nat.lt_or_ge m (n + 1) with hlt | hge
    · have hm : m ≤ n := Nat.lt_succ_iff.1 hlt
      rw [iterClosure_succ]
      exact fun x hx => subset_stepClosure (ih hm hx)
    · have : m = n + 1 := le_antisymm h hge
      subst this
      exact fun _ h => h

theorem iterClosure_subset_vertices (g : DiGraph) :
    ∀ (n : Nat) (s : List String), s ⊆ g.vertices →
      iterClosure g n s ⊆ g.vertices
  | 0, _, hs => hs
  | n + 1, s, hs => by
    rw [iterClosure_succ]
    exact stepClosure_subset (iterClosure_subset_vertices g n s hs)

theorem nodup_iterClosure (g : DiGraph) (hnd : g.vertices.Nodup) :
    ∀ (n : Nat) (s : List String), s.Nodup → (iterClosure g n s).Nodup
  | 0, _, hs => hs
  | n + 1, s, hs => by
    rw [iterClosure_succ]
    exact nodup_stepClosure hnd (nodup_iterClosure g hnd n s hs)

theorem walk_cons {g : DiGraph} {u w v : String} {n : Nat}
    (h : adjB g u w = true) (hw : Walk g w v n) : Walk g u v (n + 1) := by
  induction hw with
  | refl => exact Walk.snoc (Walk.refl u) h
  | snoc hw hadj ih => exact Walk.snoc ih hadj

theorem walk_symm {g : DiGraph} {u v : String} {n : Nat}
    (h : Walk g u v n) : Walk g v u n := by
  induction h with
  | refl => exact Walk.refl _
  | snoc hw hadj ih => exact walk_cons (adjB_symm hadj) ih

theorem reaches_refl (g : DiGraph) (v : String) : Reaches g v v :=
  ⟨0, Walk.refl v⟩

theorem reaches_symm {g : DiGraph} {u v : String} (h : Reaches g u v) :
    Reaches g v u := by
  rcases h with ⟨n, hw⟩
  exact ⟨n, walk_symm hw⟩

theorem reaches_trans {g : DiGraph} {u w v : String}
    (h1 : Reaches g u w) (h2 : Reaches g w v) : Reaches g u v := by
  rcases h2 with ⟨n, hw⟩
  induction hw with
  | refl => exact h1
  | snoc hw hadj ih =>
    rcases ih with ⟨k, hk⟩
    exact ⟨k + 1, Walk.snoc hk hadj⟩

theorem iter_sound (g : DiGraph) :
    ∀ (n : Nat) (s : List String) (v : String), v ∈ iterClosure g n s →
      ∃ u ∈ s, ∃ m, m ≤ n ∧ Walk g u v m
  | 0, s, v, h => ⟨v, h, 0, Nat.zero_le 0, Walk.refl v⟩
  | n + 1, s, v, h => by
    rw [iterClosure_succ] at h
    rcases mem_stepClosure.1 h with h | ⟨_, u, hu, hadj⟩
    · rcases iter_sound g n s v h with ⟨u, hu, m, hm, hw⟩
      exact ⟨u, hu, m, hm.trans (Nat.le_succ n), hw⟩
    · rcases iter_sound g n s u hu with ⟨x, hx, m, hm, hw⟩
      exact ⟨x, hx, m + 1, Nat.succ_le_succ hm, Walk.snoc hw hadj⟩

theorem iter_complete (g : DiGraph)
    (hE : ∀ e ∈ g.edges, e.src ∈ g.vertices ∧ e.dst ∈ g.vertices)
    {u v : String} {m : Nat} (hw : Walk g u v m) {s : List String}
    (hu : u ∈ s) : v ∈ iterClosure g m s := by
  induction hw with
  | refl => exact hu
  | snoc hw hadj ih =>
    rw [iterClosure_succ]
    refine mem_stepClosure.2 (Or.inr ⟨adjB_mem_right hE hadj, _, ih, hadj⟩)

theorem bool_eq_of_iff {a b : Bool} (h : a = true ↔ b = true) : a = b := by
  cases a <;> cases b <;> simp_all

theorem stepClosure_eq_or_lt (g : DiGraph) (s : List String) :
    stepClosure g s = s ∨ s.length < (stepClosure g s).length := by
  unfold stepClosure
  cases hf : g.vertices.filter
      (fun v => !s.contains v && s.any fun u => adjB g u v) with
  | nil => exact Or.inl (List.append_nil s)
  | cons a t =>
    right
    rw [List.length_append]
    simp

theorem nodup_subset_length {s t : List String} (hs : s.Nodup)
    (hsub : s ⊆ t) : s.length ≤ t.length := by
  calc s.length = s.toFinset.card := (List.toFinset_card_of_nodup hs).symm
    _ ≤ t.toFinset.card := Finset.card_le_card
        (fun x hx => List.mem_toFinset.2 (hsub (List.mem_toFinset.1 hx)))
    _ ≤ t.length := t.toFinset_card_le

theorem subset_of_nodup_length {s t : List String} (hs : s.Nodup)
    (hsub : s ⊆ t) (hlen : t.length ≤ s.length) : t ⊆ s := by
  have h1 : s.toFinset ⊆ t.toFinset :=
    fun x hx => List.mem_toFinset.2 (hsub (List.mem_toFinset.1 hx))
  have hcard : t.toFinset.card ≤ s.toFinset.card :=
    (t.toFinset_card_le).trans
      (hlen.trans_eq (List.toFinset_card_of_nodup hs).symm)
  have heq := Finset.eq_of_subset_of_card_le h1 hcard
  intro x hx
  exact List.mem_toFinset.1 (heq ▸ List.mem_toFinset.2 hx)

theorem iterClosure_of_fixed (g : DiGraph) {s : List String}
    (h : stepClosure g s = s) : ∀ n, iterClosure g n s = s
  | 0 => rfl
  | n + 1 => by
    show iterClosure g n (stepClosure g s) = s
    rw [h]
    exact iterClosure_of_fixed g h n

theorem saturation (g : DiGraph) (hnd : g.vertices.Nodup) :
    ∀ (fuel : Nat) (s : List String), s.Nodup → s ⊆ g.vertices →
      g.vertices.length ≤ s.length + fuel →
      stepClosure g (iterClosure g fuel s) = iterClosure g fuel s
  | 0, s, hs, hsub, hlen => by
    show stepClosure g s = s
    have hcov : g.vertices ⊆ s := subset_of_nodup_length hs hsub (by omega)
    unfold stepClosure
    have hnil : g.vertices.filter
        (fun v => !s.contains v && s.any fun u => adjB g u v) = [] := by
      apply List.filter_eq_nil_iff.2
      intro a ha
      have hmem : a ∈ s := hcov ha
      simp [hmem, contains_mem_iff.2 hmem]
    rw [hnil, List.append_nil]
  | fuel + 1, s, hs, hsub, hlen => by
    rcases stepClosure_eq_or_lt g s with hfix | hlt
    · show stepClosure g (iterClosure g fuel (stepClosure g s)) =
        iterClosure g fuel (stepClosure g s)
      rw [hfix, iterClosure_of_fixed g hfix fuel]
      exact hfix
    · show stepClosure g (iterClosure g fuel (stepClosure g s)) =
        iterClosure g fuel (stepClosure g s)
      exact saturation g hnd fuel (stepClosure g s) (nodup_stepClosure hnd hs)
        (stepClosure_subset hsub) (by omega)

theorem bfsFrom_fixed (g : DiGraph) (hnd : g.vertices.Nodup) {v : String}
    (hv : v ∈ g.vertices) : stepClosure g (bfsFrom g v) = bfsFrom g v := by
  apply saturation g hnd g.vertices.length [v] (List.nodup_singleton v)
  · intro x hx
    rcases List.mem_singleton.1 hx with rfl
    exact hv
  · omega

theorem fixed_closed (g : DiGraph)
    (hE : ∀ e ∈ g.edges, e.src ∈ g.vertices ∧ e.dst ∈ g.vertices)
    {t : List String} (hfix : stepClosure g t = t) {x y : String} {m : Nat}
    (hx : x ∈ t) (hw : Walk g x y m) : y ∈ t := by
  induction hw with
  | refl => exact hx
  | snoc hw hadj ih =>
    have hmem := mem_stepClosure.2 (Or.inr ⟨adjB_mem_right hE hadj, _, ih, hadj⟩)
    rwa [hfix] at hmem

theorem mem_bfsFrom_iff (g : DiGraph) (hnd : g.vertices.Nodup)
    (hE : ∀ e ∈ g.edges, e.src ∈ g.vertices ∧ e.dst ∈ g.vertices)
    {v : String} (hv : v ∈ g.vertices) (u : String) :
    u ∈ bfsFrom g v ↔ Reaches g v u := by
  constructor
  · intro h
    rcases iter_sound g _ [v] u h with ⟨w, hw, m, _, hwalk⟩
    rcases List.mem_singleton.1 hw with rfl
    exact ⟨m, hwalk⟩
  · rintro ⟨m, hw⟩
    have hvmem : v ∈ bfsFrom g v :=
      subset_iterClosure g _ [v] (List.mem_singleton_self v)
    exact fixed_closed g hE (bfsFrom_fixed g hnd hv) hvmem hw

theorem mem_componentOf_iff (g : DiGraph) (hnd : g.vertices.Nodup)
    (hE : ∀ e ∈ g.edges, e.src ∈ g.vertices ∧ e.dst ∈ g.vertices)
    {v : String} (hv : v ∈ g.vertices) (u : String) :
    u ∈ componentOf g v ↔ u ∈ g.vertices ∧ Reaches g v u := by
  unfold componentOf
  rw [List.mem_filter]
  constructor
  · rintro ⟨h1, h2⟩
    exact ⟨h1, (mem_bfsFrom_iff g hnd hE hv u).1 (contains_mem_iff.1 h2)⟩
  · rintro ⟨h1, h2⟩
    exact ⟨h1, contains_mem_iff.2 ((mem_bfsFrom_iff g hnd hE hv u).2 h2)⟩

theorem componentOf_eq_of_reaches (g : DiGraph) (hnd : g.vertices.Nodup)
    (hE : ∀ e ∈ g.edges, e.src ∈ g.vertices ∧ e.dst ∈ g.vertices)
    {u v : String} (hu : u ∈ g.vertices) (hv : v ∈ g.vertices)
    (h : Reaches g v u) : componentOf g v = componentOf g u := by
  unfold componentOf
  apply List.filter_congr
  intro x _
  apply bool_eq_of_iff
  rw [contains_mem_iff, contains_mem_iff, mem_bfsFrom_iff g hnd hE hv,
    mem_bfsFrom_iff g hnd hE hu]
  constructor
  · intro hvx
    exact reaches_trans (reaches_symm h) hvx
  · intro hux
    exact reaches_trans h hux

theorem reaches_of_componentOf_eq (g : DiGraph) (hnd : g.vertices.Nodup)
    (hE : ∀ e ∈ g.edges, e.src ∈ g.vertices ∧ e.dst ∈ g.vertices)
    {u v : String} (hu : u ∈ g.vertices) (hv : v ∈ g.vertices)
    (h : componentOf g v = componentOf g u) : Reaches g v u := by
  have h1 : u ∈ componentOf g u :=
    (mem_componentOf_iff g hnd hE hu u).2 ⟨hu, reaches_refl g u⟩
  rw [← h] at h1
  exact ((mem_componentOf_iff g hnd hE hv u).1 h1).2

theorem contains_false_iff {l : List String} {a : String} :
    l.contains a = false ↔ a ∉ l := by
  constructor
  · intro h hm
    have hc := contains_mem_iff.2 hm
    rw [h] at hc
    exact Bool.false_ne_true hc
  · intro h
    cases hb : l.contains a
    · rfl
    · exact absurd (contains_mem_iff.1 hb) h

theorem compFold_eq (g : DiGraph) (hnd : g.vertices.Nodup)
    (hE : ∀ e ∈ g.edges, e.src ∈ g.vertices ∧ e.dst ∈ g.vertices) :
    ∀ (vs visited : List String) (acc : Nat), vs ⊆ g.vertices →
      (∀ x ∈ visited, ∀ y, Reaches g x y → y ∈ visited) →
      compFold g vs visited acc =
        acc + ((vs.filter (fun x => !(visited.contains x))).map
          (componentOf g)).toFinset.card
  | [], visited, acc, _, _ => by simp [compFold]
  | v :: vs, visited, acc, hsub, hcl => by
    have hv : v ∈ g.vertices := hsub (List.mem_cons_self v vs)
    have hsub' : vs ⊆ g.vertices := fun x hx => hsub (List.mem_cons_of_mem v hx)
    unfold compFold
    by_cases hvv : visited.contains v = true
    · rw [if_pos hvv, compFold_eq g hnd hE vs visited acc hsub' hcl]
      have hfe : (v :: vs).filter (fun x => !(visited.contains x)) =
          vs.filter (fun x => !(visited.contains x)) := by
        rw [List.filter_cons]
        simp [hvv, contains_mem_iff.1 hvv]
      rw [hfe]
    · have hvv' : visited.contains v = false := by simpa using hvv
      rw [if_neg hvv]
      have hcl' : ∀ x ∈ visited ++ bfsFrom g v, ∀ y, Reaches g x y →
          y ∈ visited ++ bfsFrom g v := by
        intro x hx y hr
        rcases List.mem_append.1 hx with hx | hx
        · exact List.mem_append.2 (Or.inl (hcl x hx y hr))
        · have hvx : Reaches g v x := (mem_bfsFrom_iff g hnd hE hv x).1 hx
          exact List.mem_append.2 (Or.inr ((mem_bfsFrom_iff g hnd hE hv y).2
            (reaches_trans hvx hr)))
      rw [compFold_eq g hnd hE vs (visited ++ bfsFrom g v) (acc + 1) hsub' hcl']
      have hset :
          ((vs.filter (fun x => !((visited ++ bfsFrom g v).contains x))).map
            (componentOf g)).toFinset =
          ((vs.filter (fun x => !(visited.contains x))).map
            (componentOf g)).toFinset.erase (componentOf g v) := by
        ext c
        simp only [List.mem_toFinset, List.mem_map, List.mem_filter,
          Finset.mem_erase]
        constructor
        · rintro ⟨u, ⟨hu, hcu⟩, rfl⟩
          rw [Bool.not_eq_true'] at hcu
          have hnm := contains_false_iff.1 hcu
          have hnvis : u ∉ visited := fun hm => hnm (List.mem_append.2 (Or.inl hm))
          have hnbfs : u ∉ bfsFrom g v :=
            fun hm => hnm (List.mem_append.2 (Or.inr hm))
          have hu' : u ∈ g.vertices := hsub' hu
          refine ⟨?_, u, ⟨hu, ?_⟩, rfl⟩
          · intro hceq
            have hr : Reaches g v u :=
              reaches_of_componentOf_eq g hnd hE hu' hv hceq.symm
            exact hnbfs ((mem_bfsFrom_iff g hnd hE hv u).2 hr)
          · rw [Bool.not_eq_true']
            exact contains_false_iff.2 hnvis
        · rintro ⟨hne, u, ⟨hu, hcu⟩, rfl⟩
          rw [Bool.not_eq_true'] at hcu
          have hnvis := contains_false_iff.1 hcu
          have hu' : u ∈ g.vertices := hsub' hu
          refine ⟨u, ⟨hu, ?_⟩, rfl⟩
          rw [Bool.not_eq_true']
          apply contains_false_iff.2
          intro hm
          rcases List.mem_append.1 hm with hm | hm
          · exact hnvis hm
          · have hr : Reaches g v u := (mem_bfsFrom_iff g hnd hE hv u).1 hm
            have hceq : componentOf g v = componentOf g u :=
              componentOf_eq_of_reaches g hnd hE hu' hv hr
            exact hne hceq.symm
      rw [hset]
      have hfe : (v :: vs).filter (fun x => !(visited.contains x)) =
          v :: vs.filter (fun x => !(visited.contains x)) := by
        rw [List.filter_cons]
        simp [hvv', contains_false_iff.1 hvv']
      rw [hfe, List.map_cons, List.toFinset_cons]
      by_cases hmem : componentOf g v ∈
          ((vs.filter (fun x => !(visited.contains x))).map
            (componentOf g)).toFinset
      · rw [Finset.insert_eq_self.2 hmem]
        have hc1 := Finset.card_erase_add_one hmem
        omega
      · rw [Finset.erase_eq_of_not_mem hmem,
          Finset.card_insert_of_not_mem hmem]
        omega

theorem numConnectedComponents_eq_distinct (g : DiGraph)
    (hnd : g.vertices.Nodup)
    (hE : ∀ e ∈ g.edges, e.src ∈ g.vertices ∧ e.dst ∈ g.vertices) :
    numConnectedComponents g = distinctComponentCount g := by
  unfold numConnectedComponents distinctComponentCount
  rw [compFold_eq g hnd hE g.vertices [] 0 (fun x hx => hx)
    (by intro x hx; simp at hx)]
  have hfe : g.vertices.filter (fun x => !(([] : List String).contains x)) =
      g.vertices :=
    List.filter_eq_self.2 (fun a _ => rfl)
  rw [hfe, toFinset_of_map]
  omega

theorem bfs_covers_iff (g : DiGraph) (hnd : g.vertices.Nodup)
    (hE : ∀ e ∈ g.edges, e.src ∈ g.vertices ∧ e.dst ∈ g.vertices)
    {v : String} (hv : v ∈ g.vertices) :
    (bfsFrom g v).length = g.vertices.length ↔
      ∀ u ∈ g.vertices, Reaches g v u := by
  have hsub : bfsFrom g v ⊆ g.vertices := by
    apply iterClosure_subset_vertices
    intro x hx
    rcases List.mem_singleton.1 hx with rfl
    exact hv
  have hnods : (bfsFrom g v).Nodup :=
    nodup_iterClosure g hnd _ [v] (List.nodup_singleton v)
  constructor
  · intro hlen
    have hcov : g.vertices ⊆ bfsFrom g v :=
      subset_of_nodup_length hnods hsub (le_of_eq hlen.symm)
    intro u hu
    exact (mem_bfsFrom_iff g hnd hE hv u).1 (hcov hu)
  · intro hall
    have hcov : g.vertices ⊆ bfsFrom g v :=
      fun u hu => (mem_bfsFrom_iff g hnd hE hv u).2 (hall u hu)
    exact le_antisymm (nodup_subset_length hnods hsub)
      (nodup_subset_length hnd hcov)

theorem distinct_one_iff (g : DiGraph) (hnd : g.vertices.Nodup)
    (hE : ∀ e ∈ g.edges, e.src ∈ g.vertices ∧ e.dst ∈ g.vertices)
    {v : String} (hv : v ∈ g.vertices) :
    distinctComponentCount g = 1 ↔ ∀ u ∈ g.vertices, Reaches g v u := by
  unfold distinctComponentCount
  constructor
  · intro h1
    rcases Finset.card_eq_one.1 h1 with ⟨c, hc⟩
    have hvc : componentOf g v ∈ g.vertices.toFinset.image (componentOf g) :=
      Finset.mem_image.2 ⟨v, List.mem_toFinset.2 hv, rfl⟩
    rw [hc, Finset.mem_singleton] at hvc
    intro u hu
    have huc : componentOf g u ∈ g.vertices.toFinset.image (componentOf g) :=
      Finset.mem_image.2 ⟨u, List.mem_toFinset.2 hu, rfl⟩
    rw [hc, Finset.mem_singleton, ← hvc] at huc
    exact reaches_symm (reaches_of_componentOf_eq g hnd hE hv hu huc)
  · intro hall
    have himg : g.vertices.toFinset.image (componentOf g) =
        {componentOf g v} := by
      apply Finset.Subset.antisymm
      · intro c hc
        rcases Finset.mem_image.1 hc with ⟨u, hu, rfl⟩
        have hu' := List.mem_toFinset.1 hu
        have hceq : componentOf g v = componentOf g u :=
          componentOf_eq_of_reaches g hnd hE hu' hv (hall u hu')
        exact Finset.mem_singleton.2 hceq.symm
      · intro c hc
        rw [Finset.mem_singleton.1 hc]
        exact Finset.mem_image.2 ⟨v, List.mem_toFinset.2 hv, rfl⟩
    rw [himg, Finset.card_singleton]

theorem firstTrue_spec (p : Nat → Bool) :
    ∀ (fuel start m : Nat), firstTrue p fuel start = some m →
      p m = true ∧ start ≤ m ∧ m < start + fuel ∧
        ∀ j, start ≤ j → j < m → p j = false
  | 0, start, m, h => by simp [firstTrue] at h
  | fuel + 1, start, m, h => by
    unfold firstTrue at h
    by_cases hp : p start = true
    · rw [if_pos hp] at h
      have hm : start = m := Option.some.inj h
      subst hm
      exact ⟨hp, le_refl _, by omega, fun j h1 h2 => by omega⟩
    · rw [if_neg hp] at h
      have hp' : p start = false := by simpa using hp
      rcases firstTrue_spec p fuel (start + 1) m h with ⟨h1, h2, h3, h4⟩
      refine ⟨h1, by omega, by omega, ?_⟩
      intro j hj1 hj2
      rcases Nat.eq_or_lt_of_le hj1 with heq | hlt
      · rw [← heq]
        exact hp'
      · exact h4 j (by omega) hj2

theorem firstTrue_exists (p : Nat → Bool) :
    ∀ (fuel start t : Nat), start ≤ t → t < start + fuel → p t = true →
      ∃ m, firstTrue p fuel start = some m ∧ m ≤ t
  | 0, _, t, h1, h2, _ => by omega
  | fuel + 1, start, t, h1, h2, hp => by
    unfold firstTrue
    by_cases hs : p start = true
    · exact ⟨start, by rw [if_pos hs], h1⟩
    · rw [if_neg hs]
      have hne : start ≠ t := by
        intro heq
        rw [heq] at hs
        exact hs hp
      rcases firstTrue_exists p fuel (start + 1) t (by omega) (by omega) hp
        with ⟨m, hm, hmt⟩
      exact ⟨m, hm, hmt⟩

theorem mem_iter_iff_walk (g : DiGraph)
    (hE : ∀ e ∈ g.edges, e.src ∈ g.vertices ∧ e.dst ∈ g.vertices)
    (u x : String) (n : Nat) :
    x ∈ iterClosure g n [u] ↔ ∃ m, m ≤ n ∧ Walk g u x m := by
  constructor
  · intro h
    rcases iter_sound g n [u] x h with ⟨w, hw, m, hm, hwalk⟩
    rcases List.mem_singleton.1 hw with rfl
    exact ⟨m, hm, hwalk⟩
  · rintro ⟨m, hm, hw⟩
    exact iterClosure_mono g hm [u]
      (iter_complete g hE hw (List.mem_singleton_self u))

theorem bfsDist_shortest (g : DiGraph) (hnd : g.vertices.Nodup)
    (hE : ∀ e ∈ g.edges, e.src ∈ g.vertices ∧ e.dst ∈ g.vertices)
    {u x : String} (hu : u ∈ g.vertices) (hr : Reaches g u x) :
    ∃ d, bfsDist g u x = some d ∧ ShortestDist g u x d := by
  rcases hr with ⟨m0, hw0⟩
  have hx : x ∈ iterClosure g g.vertices.length [u] :=
    fixed_closed g hE (bfsFrom_fixed g hnd hu)
      (subset_iterClosure g _ [u] (List.mem_singleton_self u)) hw0
  have htrue : (iterClosure g g.vertices.length [u]).contains x = true :=
    contains_mem_iff.2 hx
  rcases firstTrue_exists (fun n => (iterClosure g n [u]).contains x)
      (g.vertices.length + 1) 0 g.vertices.length (by omega) (by omega) htrue
    with ⟨d, hd, _⟩
  rcases firstTrue_spec _ _ _ _ hd with ⟨hpd, _, _, hmin⟩
  have hnolt : ∀ m, Walk g u x m → d ≤ m := by
    intro m hw
    by_contra hcon
    have hmd : m < d := by omega
    have hfalse := hmin m (by omega) hmd
    have : x ∈ iterClosure g m [u] :=
      (mem_iter_iff_walk g hE u x m).2 ⟨m, le_refl m, hw⟩
    rw [contains_mem_iff.2 this] at hfalse
    simp at hfalse
  rcases (mem_iter_iff_walk g hE u x d).1 (contains_mem_iff.1 hpd)
    with ⟨m, hmd, hwm⟩
  have hdm : d ≤ m := hnolt m hwm
  have hmeq : m = d := le_antisymm hmd hdm
  exact ⟨d, hd, hmeq ▸ hwm, hnolt⟩

theorem shortestDist_unique {g : DiGraph} {u x : String} {d1 d2 : Nat}
    (h1 : ShortestDist g u x d1) (h2 : ShortestDist g u x d2) : d1 = d2 :=
  le_antisymm (h1.2 d2 h2.1) (h2.2 d1 h1.1)

theorem shortestDist_self (g : DiGraph) (v : String) :
    ShortestDist g v v 0 :=
  ⟨Walk.refl v, fun m _ => Nat.zero_le m⟩

theorem diameter_correct (g : DiGraph) (hnd : g.vertices.Nodup)
    (hE : ∀ e ∈ g.edges, e.src ∈ g.vertices ∧ e.dst ∈ g.vertices)
    {v0 : String} (hv0 : v0 ∈ g.vertices)
    (hconn : ∀ u ∈ g.vertices, ∀ w ∈ g.vertices, Reaches g u w) :
    IsGraphDiameter g (diameter g) := by
  constructor
  · rcases foldr_max_zero_or_mem (g.vertices.map (fun u => eccentricity g u))
      with h0 | hm
    · have hD : diameter g = 0 := h0
      rw [hD]
      exact ⟨v0, hv0, v0, hv0, shortestDist_self g v0⟩
    · rcases List.mem_map.1 hm with ⟨u, hu, hecc⟩
      have hDu : diameter g = eccentricity g u := hecc.symm
      rcases foldr_max_zero_or_mem
          (g.vertices.map (fun x => (bfsDist g u x).getD 0)) with h0' | hm2
      · have hD : diameter g = 0 := by rw [hDu]; exact h0'
        rw [hD]
        exact ⟨v0, hv0, v0, hv0, shortestDist_self g v0⟩
      · rcases List.mem_map.1 hm2 with ⟨x, hx, hdx⟩
        have h1 : eccentricity g u = (bfsDist g u x).getD 0 := hdx.symm
        rcases bfsDist_shortest g hnd hE hu (hconn u hu x hx)
          with ⟨d, hd, hsd⟩
        have h2 : (bfsDist g u x).getD 0 = d := by rw [hd]; rfl
        have hDd : diameter g = d := by rw [hDu, h1, h2]
        rw [hDd]
        exact ⟨u, hu, x, hx, hsd⟩
  · intro u hu w hw m hsd
    rcases bfsDist_shortest g hnd hE hu (hconn u hu w hw) with ⟨d, hd, hsd'⟩
    have hmd : m = d := shortestDist_unique hsd hsd'
    have h1 : (bfsDist g u w).getD 0 = d := by rw [hd]; rfl
    have h2 : (bfsDist g u w).getD 0 ≤ eccentricity g u :=
      le_foldr_max _ _ (List.mem_map.2 ⟨w, hw, rfl⟩)
    have h3 : eccentricity g u ≤ diameter g :=
      le_foldr_max _ _ (List.mem_map.2 ⟨u, hu, rfl⟩)
    omega

/-- C2 (counterexample): on the empty loaded graph, nx.is_connected
raises NetworkXPointlessConcept, so the connectivity metric produces no
variant at all, although the claim requires the ComponentCount variant
there (an empty graph has 0 components, not exactly 1). -/
theorem connectivity_empty_counterexample :
    connectivity gEmpty = none ∧
      connectivity gEmpty ≠ some (ConnResult.ComponentCount 0) ∧
      numConnectedComponents gEmpty = 0 := by
  refine ⟨by decide, by decide, by decide⟩

/-- C2 (amended): for every nonempty loaded graph, connectivity returns
the Diameter variant exactly when the undirected projection has one
connected component, and the returned diameter is the longest
shortest-path hop count; otherwise it returns ComponentCount equal to
the true number of connected components (the number of distinct
reachability classes of the vertices), and the diameter computation is
not attempted.  On the empty graph the code raises instead of returning
a variant. -/
theorem connectivity_characterization (g : DiGraph)
    (hnd : g.vertices.Nodup)
    (hE : ∀ e ∈ g.edges, e.src ∈ g.vertices ∧ e.dst ∈ g.vertices)
    (hne : g.vertices ≠ []) :
    ((∃ d, connectivity g = some (ConnResult.Diameter d)) ↔
      distinctComponentCount g = 1) ∧
    (∀ c, connectivity g = some (ConnResult.ComponentCount c) →
      c = distinctComponentCount g ∧ distinctComponentCount g ≠ 1) ∧
    (∀ d, connectivity g = some (ConnResult.Diameter d) →
      IsGraphDiameter g d) ∧
    (∀ v ∈ g.vertices, ∀ u, u ∈ componentOf g v ↔
      (u ∈ g.vertices ∧ Reaches g v u)) ∧
    numConnectedComponents g = distinctComponentCount g := by
  obtain ⟨v0, tl, hv⟩ : ∃ v0 tl, g.vertices = v0 :: tl := by
    cases hcase : g.vertices with
    | nil => exact absurd hcase hne
    | cons a t => exact ⟨a, t, rfl⟩
  have hv0 : v0 ∈ g.vertices := by
    rw [hv]
    exact List.mem_cons_self v0 tl
  have hcb : connectivity g =
      if (bfsFrom g v0).length = (v0 :: tl).length
      then some (ConnResult.Diameter (diameter g))
      else some (ConnResult.ComponentCount (numConnectedComponents g)) := by
    unfold connectivity
    rw [hv]
  by_cases hcov : (bfsFrom g v0).length = g.vertices.length
  · have hcov' : (bfsFrom g v0).length = (v0 :: tl).length := by
      rw [← hv]
      exact hcov
    have hconn1 : ∀ u ∈ g.vertices, Reaches g v0 u :=
      (bfs_covers_iff g hnd hE hv0).1 hcov
    have hdc1 : distinctComponentCount g = 1 :=
      (distinct_one_iff g hnd hE hv0).2 hconn1
    have hcc : connectivity g = some (ConnResult.Diameter (diameter g)) := by
      rw [hcb, if_pos hcov']
    refine ⟨?_, ?_, ?_, ?_, numConnectedComponents_eq_distinct g hnd hE⟩
    · exact ⟨fun _ => hdc1, fun _ => ⟨diameter g, hcc⟩⟩
    · intro c hc'
      rw [hcc] at hc'
      simp at hc'
    · intro d hd'
      rw [hcc] at hd'
      simp only [Option.some.injEq, ConnResult.Diameter.injEq] at hd'
      rw [← hd']
      have hconn2 : ∀ u ∈ g.vertices, ∀ w ∈ g.vertices, Reaches g u w := by
        intro u hu w hw
        exact reaches_trans (reaches_symm (hconn1 u hu)) (hconn1 w hw)
      exact diameter_correct g hnd hE hv0 hconn2
    · intro v hvv u
      exact mem_componentOf_iff g hnd hE hvv u
  · have hcov' : ¬ (bfsFrom g v0).length = (v0 :: tl).length := by
      rw [← hv]
      exact hcov
    have hcc : connectivity g =
        some (ConnResult.ComponentCount (numConnectedComponents g)) := by
      rw [hcb, if_neg hcov']
    have hnc1 : distinctComponentCount g ≠ 1 := by
      intro h1
      exact hcov ((bfs_covers_iff g hnd hE hv0).2
        ((distinct_one_iff g hnd hE hv0).1 h1))
    refine ⟨?_, ?_, ?_, ?_, numConnectedComponents_eq_distinct g hnd hE⟩
    · constructor
      · rintro ⟨d, hd⟩
        rw [hcc] at hd
        simp at hd
      · intro h1
        exact absurd h1 hnc1
    · intro c hc'
      rw [hcc] at hc'
      simp only [Option.some.injEq, ConnResult.ComponentCount.injEq] at hc'
      refine ⟨?_, hnc1⟩
      rw [← hc']
      exact numConnectedComponents_eq_distinct g hnd hE
    · intro d hd
      rw [hcc] at hd
      simp at hd
    · intro v hvv u
      exact mem_componentOf_iff g hnd hE hvv u

/-- Witness for connectivity_characterization at a concrete input. -/
theorem connectivity_characterization_witness :
    (gPair.vertices.Nodup ∧
      (∀ e ∈ gPair.edges, e.src ∈ gPair.vertices ∧ e.dst ∈ gPair.vertices) ∧
      gPair.vertices ≠ []) ∧
    (((∃ d, connectivity gPair = some (ConnResult.Diameter d)) ↔
        distinctComponentCount gPair = 1) ∧
      (∀ c, connectivity gPair = some (ConnResult.ComponentCount c) →
        c = distinctComponentCount gPair ∧ distinctComponentCount gPair ≠ 1) ∧
      (∀ d, connectivity gPair = some (ConnResult.Diameter d) →
        IsGraphDiameter gPair d) ∧
      (∀ v ∈ gPair.vertices, ∀ u, u ∈ componentOf gPair v ↔
        (u ∈ gPair.vertices ∧ Reaches gPair v u)) ∧
      numConnectedComponents gPair = distinctComponentCount gPair) :=
  ⟨⟨by decide, by decide, by decide⟩,
    connectivity_characterization gPair (by decide) (by decide) (by decide)⟩

/-! ## Network density (claim C6) -/

/-- C6 (counterexample): on a directed graph with two vertices and one
edge, nx.density returns 1/2, not the value 1 given by the spec formula
2·|E| / (|V|·(|V|−1)). -/
theorem density_directed_counterexample :
    density gPair = 1 / 2 ∧
      density gPair ≠ 2 * (gPair.edges.length : ℚ) /
        ((gPair.vertices.length : ℚ) * ((gPair.vertices.length : ℚ) - 1)) := by
  constructor
  · unfold density
    norm_num [gPair]
  · unfold density
    norm_num [gPair]

/-- C6 (amended): for a graph with at least two entities, nx.density on
the directed graph equals |E| / (|V|·(|V|−1)) — the directed convention,
without the factor 2 of the spec formula. -/
theorem density_directed_formula (g : DiGraph)
    (h2 : 2 ≤ g.vertices.length) :
    density g = (g.edges.length : ℚ) /
      ((g.vertices.length : ℚ) * ((g.vertices.length : ℚ) - 1)) := by
  unfold density
  by_cases hm : g.edges.length = 0
  · rw [if_pos (Or.inl hm), hm]
    norm_num
  · have hcond : ¬(g.edges.length = 0 ∨ g.vertices.length ≤ 1) := by
      push_neg
      exact ⟨hm, by omega⟩
    rw [if_neg hcond]

/-- Witness for density_directed_formula at a concrete input. -/
theorem density_directed_formula_witness :
    2 ≤ gPair.vertices.length ∧
      density gPair = (gPair.edges.length : ℚ) /
        ((gPair.vertices.length : ℚ) * ((gPair.vertices.length : ℚ) - 1)) :=
  ⟨by decide, density_directed_formula gPair (by decide)⟩

/-! ## PageRank table (claim C7) -/

theorem outWeight_gBA (v : String) : outWeight gBA v = 0 := by
  simp [outWeight, gBA]

theorem prContrib_gBA (x : List (String × ℚ)) (v : String) :
    prContrib gBA x v = 0 := by
  simp [prContrib, gBA]

theorem prLookup_pair (v : String) :
    prLookup [("b", (1:ℚ)/2), ("a", (1:ℚ)/2)] v =
      if v = "b" then 1/2 else if v = "a" then 1/2 else 0 := by
  by_cases hb : v = "b"
  · simp [prLookup, List.find?, hb]
  · by_cases ha : v = "a"
    · simp [prLookup, List.find?, ha, hb]
    · have hb' : ("b" == v) = false := beq_eq_false_iff_ne.2 (fun h => hb h.symm)
      have ha' : ("a" == v) = false := beq_eq_false_iff_ne.2 (fun h => ha h.symm)
      simp [prLookup, List.find?, hb', ha', hb, ha]

theorem prStep_gBA :
    prStep gBA [("b", (1:ℚ)/2), ("a", (1:ℚ)/2)] =
      [("b", (1:ℚ)/2), ("a", (1:ℚ)/2)] := by
  have hv : gBA.vertices = ["b", "a"] := rfl
  simp only [prStep, hv, List.filter_cons, List.filter_nil, outWeight_gBA,
    prContrib_gBA, prLookup_pair, List.map_cons, List.map_nil, List.foldr_cons,
    List.foldr_nil, List.length_cons, List.length_nil]
  norm_num

theorem prErr_same :
    prErr gBA [("b", (1:ℚ)/2), ("a", (1:ℚ)/2)]
      [("b", (1:ℚ)/2), ("a", (1:ℚ)/2)] = 0 := by
  have hv : gBA.vertices = ["b", "a"] := rfl
  simp [prErr, hv, prLookup_pair]

theorem pagerank_gBA :
    pagerankScores gBA = some [("b", (1:ℚ)/2), ("a", (1:ℚ)/2)] := by
  have hv : gBA.vertices = ["b", "a"] := rfl
  have hinit : gBA.vertices.map (fun v => (v, 1 / (gBA.vertices.length : ℚ))) =
      [("b", (1:ℚ)/2), ("a", (1:ℚ)/2)] := by
    rw [hv]
    norm_num
  have hloop : prLoop gBA 100 [("b", (1:ℚ)/2), ("a", (1:ℚ)/2)] =
      some [("b", (1:ℚ)/2), ("a", (1:ℚ)/2)] := by
    have h100 : (100 : Nat) = 99 + 1 := rfl
    rw [h100]
    show (if prErr gBA (prStep gBA [("b", (1:ℚ)/2), ("a", (1:ℚ)/2)])
          [("b", (1:ℚ)/2), ("a", (1:ℚ)/2)] <
        (gBA.vertices.length : ℚ) * (1 / 1000000)
      then some (prStep gBA [("b", (1:ℚ)/2), ("a", (1:ℚ)/2)])
      else prLoop gBA 99 (prStep gBA [("b", (1:ℚ)/2), ("a", (1:ℚ)/2)])) =
      some [("b", (1:ℚ)/2), ("a", (1:ℚ)/2)]
    rw [prStep_gBA, prErr_same, if_pos (by rw [hv]; norm_num)]
  show prLoop gBA 100
      (gBA.vertices.map (fun v => (v, 1 / (gBA.vertices.length : ℚ)))) =
      some [("b", (1:ℚ)/2), ("a", (1:ℚ)/2)]
  rw [hinit, hloop]

theorem top_gBA :
    topByPageRank gBA 2 = some [("b", (1:ℚ)/2), ("a", (1:ℚ)/2)] := by
  rw [topByPageRank, pagerank_gBA]
  show some ((sortByScoreDesc [("b", (1:ℚ)/2), ("a", (1:ℚ)/2)]).take 2) = _
  norm_num [sortByScoreDesc, sortLe, insLe]

/-- C7 (counterexample): a graph whose two isolated vertices appear in
file order b, a gives both vertices PageRank 1/2; the rendered table
keeps the node order (b before a) although the claim requires the tie to
be broken by entity name in lexicographic order (a before b). -/
theorem topByPageRank_tie_counterexample :
    topByPageRank gBA 2 = some [("b", (1:ℚ)/2), ("a", (1:ℚ)/2)] ∧
      strLexLT "a" "b" = true ∧ ("a" : String) ≠ "b" :=
  ⟨top_gBA, by decide, by decide⟩

/-- C7 (amended): the PageRank table is the first k entries of the
stable descending-by-score sort of the score mapping: at most k pairs,
scores non-increasing, and entries tied on score keep the node order of
the graph (Python's sorted is stable), not lexicographic name order;
the result is still deterministic on identical input.  No table is
produced only when nx.pagerank raises after 100 unconverged iterations
(modelled as none). -/
theorem topByPageRank_characterization (g : DiGraph) (k : Nat) :
    topByPageRank g k =
      (pagerankScores g).map (fun pr => (sortByScoreDesc pr).take k) ∧
    ∀ pr : List (String × ℚ),
      ((sortByScoreDesc pr).take k).length ≤ k ∧
      ((sortByScoreDesc pr).take k).Pairwise (fun a b => b.2 ≤ a.2) ∧
      (∀ s : ℚ, (sortByScoreDesc pr).filter (fun p => decide (p.2 = s)) =
        pr.filter (fun p => decide (p.2 = s))) := by
  refine ⟨rfl, ?_⟩
  intro pr
  refine ⟨?_, ?_, ?_⟩
  · rw [List.length_take]
    exact min_le_left _ _
  · apply List.Pairwise.sublist (List.take_sublist _ _)
    have hs := sortLe_pairwise (fun a b : String × ℚ => decide (b.2 ≤ a.2))
      (fun x y => by
        rcases le_total y.2 x.2 with h | h
        · exact Or.inl (decide_eq_true h)
        · exact Or.inr (decide_eq_true h))
      (fun x y z hxy hyz =>
        decide_eq_true ((of_decide_eq_true hyz).trans (of_decide_eq_true hxy)))
      pr
    exact hs.imp (fun hab => of_decide_eq_true hab)
  · intro s
    apply sortLe_filter
    intro a b hpa hle
    have ha := of_decide_eq_true hpa
    have hlt : a.2 < b.2 := lt_of_not_le (of_decide_eq_false hle)
    apply decide_eq_false
    intro hb
    exact absurd (le_of_eq (hb.trans ha.symm)) (not_le.2 hlt)
